import Mathlib

/-!
Verification of `internal/gitutil/gitutil.go` from dearchap/go-semantic-release.

The file shallowly embeds the three operations of the package as pure Lean
functions over an explicit repository state:

* `GetBranch`      (lines 46-77 of gitutil.go),
* `GetLastVersion` (lines 80-122),
* `GetCommits` and its helper `getParents` (lines 125-201).

The repository state `Repo` records exactly the observations the Go code makes
through go-git: the resolved HEAD reference name, the enumerated local branch
refs, the commits yielded by the committer-time log iterator (with a possible
iterator failure after the yielded prefix), the object store used by
`CommitObject` lookups, and the tag references.  Error channels are modelled
with `Option String` / `Except String`.  Semantic-version parsing and
precedence (the external Masterminds/semver collaborator) are modelled from the
spec's description of standard semantic-version precedence.
-/

/-- A git commit object as the code reads it (`object.Commit`): hash, message,
committer name and the list of parent hashes. -/
structure Commit where
  hash : String
  message : String
  committer : String
  parentHashes : List String
deriving DecidableEq

/-- The output record `shared.Commit` with fields Message, Author, Hash; the
`Author` field is filled from the committer name. -/
structure SharedCommit where
  message : String
  author : String
  hash : String
deriving DecidableEq

/-- A tag reference: its short name and the hash the ref points at (for a
lightweight tag that is a commit hash, for an annotated tag it is the hash of
the tag object). -/
structure TagRef where
  shortName : String
  refHash : String
deriving DecidableEq

/-- The repository state observed by the functions under scrutiny.

* `store`: object store backing `Repository.CommitObject`; a hash absent from
  it is an unreadable object.
* `head`: full name of the reference `Repository.Head()` resolves to (`none`
  when reading HEAD fails).
* `branchesOk`: whether the `Repository.Branches()` call itself succeeds;
  `branches`: full names of the refs its iterator yields, in order;
  `branchesErr`: a failure the branch iterator reports after yielding
  `branches` (`none` when iteration ends normally).
* `logOk`: whether `Repository.Log` itself succeeds.
* `walk`: the commits the committer-time log iterator yields from HEAD, in
  order; `walkErr`: a failure the iterator reports after yielding `walk`
  (`none` when iteration ends normally).
* `tagsOk`: whether `Repository.Tags()` succeeds; `tagRefs`: the enumerated
  tag refs.
* `annTags`: for annotated tags, the map from tag-object hash to the commit
  hash the tag object points at (used only by the spec-modelled dereference,
  the Go code never consults it). -/
structure Repo where
  store : List Commit
  head : Option String
  branches : List String
  branchesOk : Bool
  branchesErr : Option String
  logOk : Bool
  walk : List Commit
  walkErr : Option String
  tagsOk : Bool
  tagRefs : List TagRef
  annTags : List (String × String)
deriving DecidableEq

/-- `Repository.CommitObject`: look a commit up by hash; `none` models the
error return for a missing or unreadable object. -/
def Repo.commitObject (r : Repo) (h : String) : Option Commit :=
  r.store.find? (fun c => c.hash == h)

/-- Build the `shared.Commit` record the code emits for a commit object
(message, committer name as author, hash). -/
def recordOf (c : Commit) : SharedCommit :=
  { message := c.message, author := c.committer, hash := c.hash }

/-- Fuel-indexed version of `getParents` (gitutil.go lines 183-201): for each
parent hash, look the parent up; on error skip it (`continue`), otherwise
record it and recurse exactly when the parent has exactly one parent.  The Go
recursion terminates because the commit graph is acyclic; fuel makes the same
recursion structurally terminating, and `getParents` below supplies fuel
exceeding any ancestor-chain length in the store. -/
def getParentsF (r : Repo) : Nat → Commit → List SharedCommit
  | 0, _ => []
  | fuel + 1, current =>
    current.parentHashes.flatMap fun h =>
      match r.commitObject h with
      | none => []
      | some parent =>
        recordOf parent ::
          (if parent.parentHashes.length == 1 then getParentsF r fuel parent else [])

/-- `getParents` (gitutil.go lines 183-201) with fuel covering every acyclic
ancestor chain of the store. -/
def getParents (r : Repo) (current : Commit) : List SharedCommit :=
  getParentsF r (r.store.length + 1) current

/-- The merge-commit block of the `GetCommits` loop body (lines 157-171): when
the visited commit has exactly two parents, fetch the second parent; on
success record it and append `getParents` of it, on error add nothing. -/
def mergeAdditions (r : Repo) (c : Commit) : List SharedCommit :=
  if c.parentHashes.length == 2 then
    match c.parentHashes[1]? with
    | some h2 =>
      match r.commitObject h2 with
      | some parent => recordOf parent :: getParents r parent
      | none => []
    | none => []
  else []

/-- Everything the `GetCommits` loop body appends for one visited commit that
did not match the boundary: its own record followed by the merge additions. -/
def processCommit (r : Repo) (c : Commit) : List SharedCommit :=
  recordOf c :: mergeAdditions r c

/-- The `cIter.ForEach` loop of `GetCommits` (lines 140-174): visit the yielded
commits in order; on a hash equal to `lastTagHash` stop via `storer.ErrStop`
(which makes `ForEach` return nil); otherwise append `processCommit`.  The
second component tells whether the walk was stopped at the boundary. -/
def collectLoop (r : Repo) (lastTagHash : String) : List Commit → List SharedCommit × Bool
  | [] => ([], false)
  | c :: rest =>
    if c.hash == lastTagHash then ([], true)
    else
      let pr := collectLoop r lastTagHash rest
      (processCommit r c ++ pr.1, pr.2)

/-- `GetCommits` (gitutil.go lines 125-181).  Head failure and Log failure
return `(nil, err)`.  Otherwise the loop runs over the yielded commits; when
the iterator fails after its yielded prefix and the walk was not stopped at
the boundary, the error is wrapped with the clone-depth guidance and returned
together with the commits collected so far. -/
def GetCommits (r : Repo) (lastTagHash : String) : List SharedCommit × Option String :=
  match r.head with
  | none => ([], some "reference not found")
  | some _ =>
    if r.logOk then
      match r.walkErr with
      | some e =>
        if (collectLoop r lastTagHash r.walk).2 then ((collectLoop r lastTagHash r.walk).1, none)
        else ((collectLoop r lastTagHash r.walk).1,
          some ("Could not read commits, check git clone depth in your ci: " ++ e))
      | none => ((collectLoop r lastTagHash r.walk).1, none)
    else ([], some "object not found")

/-- Boolean string-prefix test over the character lists (kernel-friendly). -/
def hasPref (p s : String) : Bool :=
  p.data.isPrefixOf s.data

/-- `ReferenceName.IsBranch()`: the full name starts with `refs/heads/`. -/
def refIsBranch (n : String) : Bool :=
  hasPref "refs/heads/" n

/-- `ReferenceName.Short()` for the reference kinds the code touches: strip a
`refs/heads/`, `refs/tags/` or `refs/remotes/` prefix, otherwise return the
name unchanged. -/
def refShortName (n : String) : String :=
  if hasPref "refs/heads/" n then (n.data.drop 11).asString
  else if hasPref "refs/tags/" n then (n.data.drop 10).asString
  else if hasPref "refs/remotes/" n then (n.data.drop 13).asString
  else n

/-- The qualifying test of the detached-HEAD fallback (line 61): a local
branch ref whose short name is not the literal `"origin"`. -/
def branchQualifies (p : String) : Bool :=
  refIsBranch p && refShortName p != "origin"

/-- `GetBranch` (gitutil.go lines 46-77).  HEAD read failure propagates
(lines 47-50); a symbolic HEAD returns its short name (line 76).  Detached:
a failing `Repository.Branches()` call propagates its error (lines 53-56);
otherwise the `ForEach` with the sentinel "break" error runs (lines 59-66) and
any non-nil `found` — the sentinel after setting `currentBranch`, or an
iterator failure with `currentBranch` still empty — returns
`(currentBranch, nil)` (lines 68-71): so the first yielded qualifying branch
is returned, an iterator failure before one yields the empty name with no
error, and only a completed iteration with no qualifying branch produces the
`no branch found` error carrying the raw HEAD reference name (line 73). -/
def GetBranch (r : Repo) : Except String String :=
  match r.head with
  | none => Except.error "reference not found"
  | some hname =>
    if refIsBranch hname then Except.ok (refShortName hname)
    else if r.branchesOk then
      match r.branches.find? branchQualifies with
      | some p => Except.ok (refShortName p)
      | none =>
        match r.branchesErr with
        | some _ => Except.ok ""
        | none =>
          Except.error
            ("no branch found, found " ++ hname ++
              ", please checkout a branch (git checkout -b <BRANCH>)")
    else Except.error "branches error"

/-! ## Semantic versions

The Go code delegates parsing and precedence to the external Masterminds/semver
library.  Modelled from the spec: a tag name is a version when, after an
optional leading `v`, it has the shape `MAJOR.MINOR.PATCH` with numeric parts,
optionally followed by `-` and dot-separated pre-release identifiers and by
`+` and build metadata (ignored for precedence); precedence compares major,
minor and patch numerically, then pre-releases by the standard rules (a
release outranks any pre-release; identifiers compare numerically when both
numeric, lexically when both alphanumeric, and numeric identifiers rank below
alphanumeric ones; a shorter identifier list ranks below an extension of
itself). -/

/-- A pre-release identifier: numeric, or alphanumeric (kept as characters). -/
inductive PreId where
  | num : Nat → PreId
  | alpha : List Char → PreId
deriving DecidableEq

/-- A parsed semantic version; `original` keeps the original tag string, as
the library's `Version.Original()` does. -/
structure SemVer where
  major : Nat
  minor : Nat
  patch : Nat
  pre : List PreId
  original : String
deriving DecidableEq

/-- Split a character list on every occurrence of `sep`. -/
def splitOnChar (sep : Char) : List Char → List (List Char)
  | [] => [[]]
  | c :: cs =>
    if c == sep then [] :: splitOnChar sep cs
    else
      match splitOnChar sep cs with
      | [] => [[c]]
      | g :: gs => (c :: g) :: gs

/-- Split a character list at the first occurrence of `sep`: the part before
it and, when `sep` occurs, the part after it. -/
def breakAt (sep : Char) : List Char → List Char × Option (List Char)
  | [] => ([], none)
  | c :: cs =>
    if c == sep then ([], some cs)
    else
      let pr := breakAt sep cs
      (c :: pr.1, pr.2)

/-- Numeric value of a digit list. -/
def digitsVal (cs : List Char) : Nat :=
  cs.foldl (fun n c => n * 10 + (c.toNat - 48)) 0

/-- Parse a nonempty all-digit character list as a number. -/
def parseNatPart (cs : List Char) : Option Nat :=
  if cs ≠ [] ∧ cs.all Char.isDigit then some (digitsVal cs) else none

/-- Parse one pre-release identifier: nonempty; all digits means numeric. -/
def parsePreId (cs : List Char) : Option PreId :=
  if cs = [] then none
  else if cs.all Char.isDigit then some (PreId.num (digitsVal cs))
  else some (PreId.alpha cs)

/-- Parse a dot-split list of pre-release identifiers; any bad one rejects. -/
def parsePreIds : List (List Char) → Option (List PreId)
  | [] => some []
  | g :: gs =>
    match parsePreId g, parsePreIds gs with
    | some i, some is => some (i :: is)
    | _, _ => none

/-- The structural part of version parsing, over the tag name's characters:
strip an optional leading `v`, drop build metadata after `+`, split the core
from the pre-release part at the first `-`, and require a numeric
`MAJOR.MINOR.PATCH` core. -/
def parseSemVerCore (cs0 : List Char) : Option (Nat × Nat × Nat × List PreId) :=
  let cs :=
    match cs0 with
    | 'v' :: rest => rest
    | other => other
  let beforePlus := (breakAt '+' cs).1
  let core := breakAt '-' beforePlus
  match splitOnChar '.' core.1 with
  | [ma, mi, pa] =>
    match parseNatPart ma, parseNatPart mi, parseNatPart pa with
    | some vMa, some vMi, some vPa =>
      match core.2 with
      | none => some (vMa, vMi, vPa, [])
      | some pcs =>
        match parsePreIds (splitOnChar '.' pcs) with
        | some ids => some (vMa, vMi, vPa, ids)
        | none => none
    | _, _, _ => none
  | _ => none

/-- Modelled from the spec: parse a tag short name as a semantic version
(`semver.NewVersion`), with an optional leading `v`; `none` models the parse
error the code treats as "skip this tag".  The original input string is kept,
as `Version.Original()` does. -/
def parseSemVer (s : String) : Option SemVer :=
  match parseSemVerCore s.data with
  | some (vMa, vMi, vPa, ids) => some ⟨vMa, vMi, vPa, ids, s⟩
  | none => none

/-- Three-way comparison on naturals. -/
def natCmp (a b : Nat) : Ordering :=
  if a < b then Ordering.lt else if b < a then Ordering.gt else Ordering.eq

/-- Three-way comparison on characters, by code point (ASCII order). -/
def charCmp (a b : Char) : Ordering :=
  natCmp a.toNat b.toNat

/-- Lexicographic comparison of lists by an element comparison; a proper
prefix compares below its extensions. -/
def lexCmp (f : α → α → Ordering) : List α → List α → Ordering
  | [], [] => Ordering.eq
  | [], _ :: _ => Ordering.lt
  | _ :: _, [] => Ordering.gt
  | a :: as, b :: bs =>
    match f a b with
    | Ordering.eq => lexCmp f as bs
    | o => o

/-- Compare two pre-release identifiers: numeric pairs numerically,
alphanumeric pairs lexically, numeric below alphanumeric. -/
def PreId.cmp : PreId → PreId → Ordering
  | PreId.num a, PreId.num b => natCmp a b
  | PreId.num _, PreId.alpha _ => Ordering.lt
  | PreId.alpha _, PreId.num _ => Ordering.gt
  | PreId.alpha a, PreId.alpha b => lexCmp charCmp a b

/-- Compare pre-release identifier lists: an empty list (a release) outranks
any nonempty one; two nonempty lists compare lexicographically. -/
def preCmp : List PreId → List PreId → Ordering
  | [], [] => Ordering.eq
  | [], _ :: _ => Ordering.gt
  | _ :: _, [] => Ordering.lt
  | a :: as, b :: bs => lexCmp PreId.cmp (a :: as) (b :: bs)

/-- Sequential composition of comparisons (lexicographic tie-break). -/
def thenCmp (a b : Ordering) : Ordering :=
  match a with
  | Ordering.eq => b
  | o => o

/-- Patch-and-pre-release tail of the precedence comparison. -/
def vcmp3 (a b : SemVer) : Ordering :=
  thenCmp (natCmp a.patch b.patch) (preCmp a.pre b.pre)

/-- Minor-version tail of the precedence comparison. -/
def vcmp2 (a b : SemVer) : Ordering :=
  thenCmp (natCmp a.minor b.minor) (vcmp3 a b)

/-- Semantic-version precedence comparison: major, minor, patch, then the
pre-release lists. -/
def vcmp (a b : SemVer) : Ordering :=
  thenCmp (natCmp a.major b.major) (vcmp2 a b)

/-- `a` has precedence at most that of `b`. -/
def precLE (a b : SemVer) : Bool :=
  decide (vcmp a b ≠ Ordering.gt)

/-- Insert into a precedence-descending list. -/
def insertDesc (v : SemVer) : List SemVer → List SemVer
  | [] => [v]
  | w :: ws => if precLE w v then v :: w :: ws else w :: insertDesc v ws

/-- Sort by descending precedence; models
`sort.Sort(sort.Reverse(semver.Collection(tags)))` (line 106), whose contract
is a precedence-descending ordering of the parsed tags. -/
def sortDesc : List SemVer → List SemVer
  | [] => []
  | v :: vs => insertDesc v (sortDesc vs)

/-- The versions that parse among the enumerated tag refs, in enumeration
order (the `gitTags.ForEach` accumulation of lines 90-100). -/
def parsedTags (r : Repo) : List SemVer :=
  r.tagRefs.filterMap fun t => parseSemVer t.shortName

/-- `GetLastVersion` (gitutil.go lines 80-122): enumerate tags, keep those
that parse, sort descending; no valid tag is the normal `(nil, "", nil)`
outcome; otherwise resolve the winning tag ref by its original name and
return the hash that ref points at. -/
def GetLastVersion (r : Repo) : Except String (Option SemVer × String) :=
  if r.tagsOk then
    match sortDesc (parsedTags r) with
    | [] => Except.ok (none, "")
    | best :: _ =>
      match r.tagRefs.find? (fun t => t.shortName == best.original) with
      | some t => Except.ok (some best, t.refHash)
      | none => Except.error "tag not found"
  else Except.error "reference has type typeless"

/-- Modelled from the spec: the commit hash a tag ultimately points to — an
annotated tag's ref hash is the tag object, which dereferences to its target
commit; a lightweight tag's ref hash is already the commit.  The Go code
performs no such dereference. -/
def tagCommitHash (r : Repo) (h : String) : String :=
  match r.annTags.find? (fun p => p.1 == h) with
  | some p => p.2
  | none => h

/-! ## Concrete repository states used as inputs -/

/-- A merge commit `m` with parents `a` and `b`. -/
def cmM : Commit := ⟨"m", "merge", "alice", ["a", "b"]⟩

/-- An ordinary commit `a` with parent `b`. -/
def cmA : Commit := ⟨"a", "feat", "alice", ["b"]⟩

/-- The root commit `b`. -/
def cmB : Commit := ⟨"b", "init", "bob", []⟩

/-- A three-parent (octopus) merge commit `o`. -/
def cmO : Commit := ⟨"o", "octopus", "alice", ["a", "b", "c"]⟩

/-- A second root commit `c`. -/
def cmC : Commit := ⟨"c", "third", "carol", []⟩

/-- History `b ← a ← m` with `m` also merging `b` directly: commit `b` is
reachable both through the committer-time walk and as `m`'s second parent. -/
def repoMerge : Repo :=
  { store := [cmM, cmA, cmB], head := some "refs/heads/master",
    branches := ["refs/heads/master"], branchesOk := true, branchesErr := none,
    logOk := true, walk := [cmM, cmA, cmB],
    walkErr := none, tagsOk := true, tagRefs := [], annTags := [] }

/-- A repository whose log iterator fails after yielding one commit. -/
def repoTrunc : Repo :=
  { store := [cmB], head := some "refs/heads/master", branches := ["refs/heads/master"],
    branchesOk := true, branchesErr := none,
    logOk := true, walk := [cmB], walkErr := some "object not found", tagsOk := true,
    tagRefs := [], annTags := [] }

/-- A repository whose HEAD commit `o` is an octopus merge with three parents. -/
def repoOcto : Repo :=
  { store := [cmO, cmA, cmB, cmC], head := some "refs/heads/master",
    branches := ["refs/heads/master"], branchesOk := true, branchesErr := none,
    logOk := true, walk := [cmO, cmA, cmB, cmC],
    walkErr := none, tagsOk := true, tagRefs := [], annTags := [] }

/-- A repository with one annotated tag `v1.0.0`: the ref points at tag object
`t1`, which dereferences to commit `c1`. -/
def repoAnn : Repo :=
  { store := [⟨"c1", "release", "alice", []⟩], head := some "refs/heads/master",
    branches := ["refs/heads/master"], branchesOk := true, branchesErr := none,
    logOk := true,
    walk := [⟨"c1", "release", "alice", []⟩], walkErr := none, tagsOk := true,
    tagRefs := [⟨"v1.0.0", "t1"⟩], annTags := [("t1", "c1")] }

/-- The spec's version-selection example: tags `v1.2.0`, `v2.0.0-rc.1`,
`not-a-version`, `v1.9.9`. -/
def repoTags : Repo :=
  { store := [], head := some "refs/heads/master", branches := ["refs/heads/master"],
    branchesOk := true, branchesErr := none,
    logOk := true, walk := [], walkErr := none, tagsOk := true,
    tagRefs := [⟨"v1.2.0", "h1"⟩, ⟨"v2.0.0-rc.1", "h2"⟩, ⟨"not-a-version", "h3"⟩,
      ⟨"v1.9.9", "h4"⟩],
    annTags := [] }

/-- A detached-HEAD checkout with a single local branch `release/1.0`. -/
def repoDetached : Repo :=
  { store := [], head := some "HEAD", branches := ["refs/heads/release/1.0"],
    branchesOk := true, branchesErr := none, logOk := true,
    walk := [], walkErr := none, tagsOk := true, tagRefs := [], annTags := [] }

/-- A detached-HEAD checkout in which the `Branches()` call itself fails,
although a qualifying local branch ref exists in the ref store. -/
def repoBranchFail : Repo :=
  { store := [], head := some "HEAD", branches := ["refs/heads/main"],
    branchesOk := false, branchesErr := none, logOk := true,
    walk := [], walkErr := none, tagsOk := true, tagRefs := [], annTags := [] }

/-! ## Order-theoretic facts about the precedence comparison -/

/-- An ordering-valued comparison equal to its own swap is `eq`. -/
theorem eq_of_self_swap {o : Ordering} (h : o = o.swap) : o = Ordering.eq := by
  cases o <;> first | rfl | exact absurd h (by decide)

/-- Swapping the arguments of `natCmp` swaps its result. -/
theorem natCmp_swap (a b : Nat) : natCmp a b = (natCmp b a).swap := by
  unfold natCmp
  split_ifs <;> first | rfl | omega

/-- `natCmp` answers `lt` exactly on smaller first arguments. -/
theorem natCmp_eq_lt {a b : Nat} : natCmp a b = Ordering.lt ↔ a < b := by
  constructor
  · intro h
    unfold natCmp at h
    split_ifs at h with h1 h2
    exact h1
  · intro h
    unfold natCmp
    rw [if_pos h]

/-- `natCmp` answers `eq` only on equal arguments. -/
theorem natCmp_eq_eq {a b : Nat} (h : natCmp a b = Ordering.eq) : a = b := by
  unfold natCmp at h
  split_ifs at h with h1 h2
  omega

/-- `natCmp` on equal arguments. -/
theorem natCmp_self (a : Nat) : natCmp a a = Ordering.eq := by
  unfold natCmp
  rw [if_neg (lt_irrefl a), if_neg (lt_irrefl a)]

/-- Transitivity of strict `natCmp`. -/
theorem natCmp_lt_trans {a b c : Nat} (h1 : natCmp a b = Ordering.lt)
    (h2 : natCmp b c = Ordering.lt) : natCmp a c = Ordering.lt :=
  natCmp_eq_lt.mpr (Nat.lt_trans (natCmp_eq_lt.mp h1) (natCmp_eq_lt.mp h2))

/-- Swapping the arguments of `charCmp` swaps its result. -/
theorem charCmp_swap (a b : Char) : charCmp a b = (charCmp b a).swap :=
  natCmp_swap _ _

/-- Transitivity of strict `charCmp`. -/
theorem charCmp_lt_trans {a b c : Char} (h1 : charCmp a b = Ordering.lt)
    (h2 : charCmp b c = Ordering.lt) : charCmp a c = Ordering.lt :=
  natCmp_lt_trans h1 h2

/-- Characters comparing `eq` compare identically against any third one. -/
theorem charCmp_eq_congr {a b : Char} (h : charCmp a b = Ordering.eq) (c : Char) :
    charCmp a c = charCmp b c := by
  unfold charCmp at h ⊢
  rw [natCmp_eq_eq h]

/-- Swapping the arguments of a lexicographic list comparison swaps its
result, given the same for the element comparison. -/
theorem lexCmp_swap {α : Type} (f : α → α → Ordering)
    (hswap : ∀ a b, f a b = (f b a).swap) :
    ∀ x y, lexCmp f x y = (lexCmp f y x).swap
  | [], [] => rfl
  | [], _ :: _ => rfl
  | _ :: _, [] => rfl
  | a :: as, b :: bs => by
    have ih := lexCmp_swap f hswap as bs
    simp only [lexCmp, hswap a b]
    cases f b a <;> simp [Ordering.swap, ih]

/-- Lexicographic list comparison: `eq` on the left is a congruence. -/
theorem lexCmp_eq_congr {α : Type} (f : α → α → Ordering)
    (hcong : ∀ a b, f a b = Ordering.eq → ∀ c, f a c = f b c) :
    ∀ x y, lexCmp f x y = Ordering.eq → ∀ z, lexCmp f x z = lexCmp f y z
  | [], [], _, _ => rfl
  | [], _ :: _, h, _ => absurd h (by simp [lexCmp])
  | _ :: _, [], h, _ => absurd h (by simp [lexCmp])
  | a :: as, b :: bs, h, z => by
    simp only [lexCmp] at h
    cases hab : f a b with
    | lt => simp [hab] at h
    | gt => simp [hab] at h
    | eq =>
      rw [hab] at h
      cases z with
      | nil => rfl
      | cons c cs =>
        have ih := lexCmp_eq_congr f hcong as bs h cs
        simp only [lexCmp, hcong a b hab c]
        cases f b c <;> simp [ih]

/-- Transitivity of strict lexicographic list comparison. -/
theorem lexCmp_lt_trans {α : Type} (f : α → α → Ordering)
    (hswap : ∀ a b, f a b = (f b a).swap)
    (hlt : ∀ a b c, f a b = Ordering.lt → f b c = Ordering.lt → f a c = Ordering.lt)
    (hcong : ∀ a b, f a b = Ordering.eq → ∀ c, f a c = f b c) :
    ∀ x y z, lexCmp f x y = Ordering.lt → lexCmp f y z = Ordering.lt →
      lexCmp f x z = Ordering.lt
  | [], [], _, h1, _ => absurd h1 (by simp [lexCmp])
  | [], _ :: _, [], _, h2 => absurd h2 (by simp [lexCmp])
  | [], _ :: _, _ :: _, _, _ => rfl
  | _ :: _, [], _, h1, _ => absurd h1 (by simp [lexCmp])
  | _ :: _, _ :: _, [], _, h2 => absurd h2 (by simp [lexCmp])
  | a :: as, b :: bs, c :: cs, h1, h2 => by
    simp only [lexCmp] at h1 h2 ⊢
    cases hab : f a b with
    | gt => simp [hab] at h1
    | lt =>
      rw [hab] at h1
      cases hbc : f b c with
      | gt => simp [hbc] at h2
      | lt => rw [hlt a b c hab hbc]
      | eq =>
        have hcb : f c b = Ordering.eq := by
          have := hswap b c
          rw [hbc] at this
          cases hcb0 : f c b <;> rw [hcb0] at this <;> first | rfl | exact absurd this (by decide)
        have : f a c = f a b := by
          have e1 : f c a = f b a := hcong c b hcb a
          have e2 := hswap a c
          have e3 := hswap a b
          rw [e2, e1, ← e3]
        rw [this, hab]
    | eq =>
      rw [hab] at h1
      cases hbc : f b c with
      | gt => simp [hbc] at h2
      | lt => rw [hcong a b hab c, hbc]
      | eq =>
        simp only [hbc] at h2
        rw [hcong a b hab c, hbc]
        exact lexCmp_lt_trans f hswap hlt hcong as bs cs h1 h2

/-- Swapping the arguments of the identifier comparison swaps its result. -/
theorem preIdCmp_swap : ∀ x y : PreId, PreId.cmp x y = (PreId.cmp y x).swap := by
  intro x y
  cases x <;> cases y
  · exact natCmp_swap _ _
  · rfl
  · rfl
  · exact lexCmp_swap charCmp charCmp_swap _ _

/-- Transitivity of the strict identifier comparison. -/
theorem preIdCmp_lt_trans :
    ∀ x y z : PreId, PreId.cmp x y = Ordering.lt → PreId.cmp y z = Ordering.lt →
      PreId.cmp x z = Ordering.lt := by
  intro x y z h1 h2
  cases x <;> cases y <;> cases z <;> simp only [PreId.cmp] at h1 h2 ⊢ <;>
    first
      | rfl
      | exact absurd h1 (by decide)
      | exact absurd h2 (by decide)
      | exact natCmp_lt_trans h1 h2
      | exact lexCmp_lt_trans charCmp charCmp_swap (fun _ _ _ => charCmp_lt_trans)
          (fun _ _ h c => charCmp_eq_congr h c) _ _ _ h1 h2

/-- Identifier comparison: `eq` on the left is a congruence. -/
theorem preIdCmp_eq_congr :
    ∀ x y : PreId, PreId.cmp x y = Ordering.eq → ∀ z, PreId.cmp x z = PreId.cmp y z := by
  intro x y h z
  cases x <;> cases y <;> simp only [PreId.cmp] at h <;>
    first
      | exact absurd h (by decide)
      | skip
  case num.num a b =>
    rw [natCmp_eq_eq h]
  case alpha.alpha a b =>
    cases z with
    | num n => rfl
    | alpha cs =>
      exact lexCmp_eq_congr charCmp (fun _ _ hc c => charCmp_eq_congr hc c) a b h cs

/-- Swapping the arguments of the pre-release comparison swaps its result. -/
theorem preCmp_swap : ∀ x y : List PreId, preCmp x y = (preCmp y x).swap := by
  intro x y
  cases x <;> cases y
  · rfl
  · rfl
  · rfl
  · exact lexCmp_swap PreId.cmp preIdCmp_swap _ _

/-- Transitivity of the strict pre-release comparison. -/
theorem preCmp_lt_trans :
    ∀ x y z : List PreId, preCmp x y = Ordering.lt → preCmp y z = Ordering.lt →
      preCmp x z = Ordering.lt := by
  intro x y z h1 h2
  cases x <;> cases y <;> cases z <;> simp only [preCmp] at h1 h2 ⊢ <;>
    first
      | rfl
      | exact absurd h1 (by decide)
      | exact absurd h2 (by decide)
      | exact lexCmp_lt_trans PreId.cmp preIdCmp_swap preIdCmp_lt_trans preIdCmp_eq_congr
          _ _ _ h1 h2

/-- Pre-release comparison: `eq` on the left is a congruence. -/
theorem preCmp_eq_congr :
    ∀ x y : List PreId, preCmp x y = Ordering.eq → ∀ z, preCmp x z = preCmp y z := by
  intro x y h z
  cases x <;> cases y <;> simp only [preCmp] at h <;>
    first
      | exact absurd h (by decide)
      | skip
  case nil.nil => rfl
  case cons.cons a as b bs =>
    cases z with
    | nil => rfl
    | cons c cs =>
      exact lexCmp_eq_congr PreId.cmp preIdCmp_eq_congr _ _ h (c :: cs)

/-- Swap distributes over the sequential composition of comparisons. -/
theorem thenCmp_swap : ∀ x y : Ordering, (thenCmp x y).swap = thenCmp x.swap y.swap := by
  intro x y
  cases x <;> rfl

/-- Swapping stage built from component comparisons that swap. -/
theorem compCmp_swap {α : Type} (f g : α → α → Ordering)
    (hf : ∀ x y, f x y = (f y x).swap) (hg : ∀ x y, g x y = (g y x).swap) (x y : α) :
    thenCmp (f x y) (g x y) = (thenCmp (f y x) (g y x)).swap := by
  rw [thenCmp_swap, ← hf, ← hg]

/-- Right congruence of a comparison, derived from swap and left congruence. -/
theorem compCmp_congr_r {α : Type} (f : α → α → Ordering)
    (hswap : ∀ x y, f x y = (f y x).swap)
    (hcong : ∀ x y, f x y = Ordering.eq → ∀ z, f x z = f y z)
    {a b : α} (h : f a b = Ordering.eq) (c : α) : f c a = f c b := by
  rw [hswap c a, hcong a b h c, ← hswap c b]

/-- Left congruence for a sequentially composed comparison. -/
theorem compCmp_eq_congr {α : Type} (f g : α → α → Ordering)
    (hfcong : ∀ x y, f x y = Ordering.eq → ∀ z, f x z = f y z)
    (hgcong : ∀ x y, g x y = Ordering.eq → ∀ z, g x z = g y z)
    (x y : α) (h : thenCmp (f x y) (g x y) = Ordering.eq) (z : α) :
    thenCmp (f x z) (g x z) = thenCmp (f y z) (g y z) := by
  have hf : f x y = Ordering.eq := by
    cases hf0 : f x y
    · simp [thenCmp, hf0] at h
    · rfl
    · simp [thenCmp, hf0] at h
  have hg : g x y = Ordering.eq := by
    rw [hf] at h
    exact h
  rw [hfcong x y hf z, hgcong x y hg z]

/-- Transitivity of the strict sequentially composed comparison. -/
theorem compCmp_lt_trans {α : Type} (f g : α → α → Ordering)
    (hfswap : ∀ x y, f x y = (f y x).swap)
    (hflt : ∀ x y z, f x y = Ordering.lt → f y z = Ordering.lt → f x z = Ordering.lt)
    (hfcong : ∀ x y, f x y = Ordering.eq → ∀ z, f x z = f y z)
    (hglt : ∀ x y z, g x y = Ordering.lt → g y z = Ordering.lt → g x z = Ordering.lt)
    (x y z : α) (h1 : thenCmp (f x y) (g x y) = Ordering.lt)
    (h2 : thenCmp (f y z) (g y z) = Ordering.lt) :
    thenCmp (f x z) (g x z) = Ordering.lt := by
  cases hf1 : f x y with
  | gt => simp [thenCmp, hf1] at h1
  | lt =>
    cases hf2 : f y z with
    | gt => simp [thenCmp, hf2] at h2
    | lt => rw [hflt x y z hf1 hf2]; rfl
    | eq =>
      rw [compCmp_congr_r f hfswap hfcong hf2 x] at hf1
      rw [hf1]
      rfl
  | eq =>
    cases hf2 : f y z with
    | gt => simp [thenCmp, hf2] at h2
    | lt =>
      rw [hfcong x y hf1 z, hf2]
      rfl
    | eq =>
      rw [hf1] at h1
      rw [hf2] at h2
      rw [hfcong x y hf1 z, hf2]
      exact hglt x y z h1 h2

/-- Swapping the arguments of `vcmp3` swaps its result. -/
theorem vcmp3_swap (a b : SemVer) : vcmp3 a b = (vcmp3 b a).swap := by
  show thenCmp (natCmp a.patch b.patch) (preCmp a.pre b.pre) =
    (thenCmp (natCmp b.patch a.patch) (preCmp b.pre a.pre)).swap
  exact compCmp_swap (fun x y : SemVer => natCmp x.patch y.patch)
    (fun x y : SemVer => preCmp x.pre y.pre)
    (fun x y => natCmp_swap x.patch y.patch) (fun x y => preCmp_swap x.pre y.pre) a b

/-- `vcmp3`: `eq` on the left is a congruence. -/
theorem vcmp3_eq_congr (a b : SemVer) (h : vcmp3 a b = Ordering.eq) (c : SemVer) :
    vcmp3 a c = vcmp3 b c := by
  show thenCmp (natCmp a.patch c.patch) (preCmp a.pre c.pre) =
    thenCmp (natCmp b.patch c.patch) (preCmp b.pre c.pre)
  exact compCmp_eq_congr (fun x y : SemVer => natCmp x.patch y.patch)
    (fun x y : SemVer => preCmp x.pre y.pre)
    (fun x y hxy z => by
      have h3 : x.patch = y.patch := natCmp_eq_eq hxy
      show natCmp x.patch z.patch = natCmp y.patch z.patch
      rw [h3])
    (fun x y hxy z => preCmp_eq_congr x.pre y.pre hxy z.pre) a b h c

/-- Transitivity of strict `vcmp3`. -/
theorem vcmp3_lt_trans (a b c : SemVer) (h1 : vcmp3 a b = Ordering.lt)
    (h2 : vcmp3 b c = Ordering.lt) : vcmp3 a c = Ordering.lt := by
  show thenCmp (natCmp a.patch c.patch) (preCmp a.pre c.pre) = Ordering.lt
  exact compCmp_lt_trans (fun x y : SemVer => natCmp x.patch y.patch)
    (fun x y : SemVer => preCmp x.pre y.pre)
    (fun x y => natCmp_swap x.patch y.patch)
    (fun x y z hab hbc => natCmp_lt_trans hab hbc)
    (fun x y hxy z => by
      have h3 : x.patch = y.patch := natCmp_eq_eq hxy
      show natCmp x.patch z.patch = natCmp y.patch z.patch
      rw [h3])
    (fun x y z hab hbc => preCmp_lt_trans x.pre y.pre z.pre hab hbc) a b c h1 h2

/-- Swapping the arguments of `vcmp2` swaps its result. -/
theorem vcmp2_swap (a b : SemVer) : vcmp2 a b = (vcmp2 b a).swap := by
  show thenCmp (natCmp a.minor b.minor) (vcmp3 a b) =
    (thenCmp (natCmp b.minor a.minor) (vcmp3 b a)).swap
  exact compCmp_swap (fun x y : SemVer => natCmp x.minor y.minor) vcmp3
    (fun x y => natCmp_swap x.minor y.minor) vcmp3_swap a b

/-- `vcmp2`: `eq` on the left is a congruence. -/
theorem vcmp2_eq_congr (a b : SemVer) (h : vcmp2 a b = Ordering.eq) (c : SemVer) :
    vcmp2 a c = vcmp2 b c := by
  show thenCmp (natCmp a.minor c.minor) (vcmp3 a c) =
    thenCmp (natCmp b.minor c.minor) (vcmp3 b c)
  exact compCmp_eq_congr (fun x y : SemVer => natCmp x.minor y.minor) vcmp3
    (fun x y hxy z => by
      have h3 : x.minor = y.minor := natCmp_eq_eq hxy
      show natCmp x.minor z.minor = natCmp y.minor z.minor
      rw [h3])
    vcmp3_eq_congr a b h c

/-- Transitivity of strict `vcmp2`. -/
theorem vcmp2_lt_trans (a b c : SemVer) (h1 : vcmp2 a b = Ordering.lt)
    (h2 : vcmp2 b c = Ordering.lt) : vcmp2 a c = Ordering.lt := by
  show thenCmp (natCmp a.minor c.minor) (vcmp3 a c) = Ordering.lt
  exact compCmp_lt_trans (fun x y : SemVer => natCmp x.minor y.minor) vcmp3
    (fun x y => natCmp_swap x.minor y.minor)
    (fun x y z hab hbc => natCmp_lt_trans hab hbc)
    (fun x y hxy z => by
      have h3 : x.minor = y.minor := natCmp_eq_eq hxy
      show natCmp x.minor z.minor = natCmp y.minor z.minor
      rw [h3])
    vcmp3_lt_trans a b c h1 h2

/-- Swapping the arguments of `vcmp` swaps its result. -/
theorem vcmp_swap (a b : SemVer) : vcmp a b = (vcmp b a).swap := by
  show thenCmp (natCmp a.major b.major) (vcmp2 a b) =
    (thenCmp (natCmp b.major a.major) (vcmp2 b a)).swap
  exact compCmp_swap (fun x y : SemVer => natCmp x.major y.major) vcmp2
    (fun x y => natCmp_swap x.major y.major) vcmp2_swap a b

/-- `vcmp`: `eq` on the left is a congruence. -/
theorem vcmp_eq_congr (a b : SemVer) (h : vcmp a b = Ordering.eq) (c : SemVer) :
    vcmp a c = vcmp b c := by
  show thenCmp (natCmp a.major c.major) (vcmp2 a c) =
    thenCmp (natCmp b.major c.major) (vcmp2 b c)
  exact compCmp_eq_congr (fun x y : SemVer => natCmp x.major y.major) vcmp2
    (fun x y hxy z => by
      have h3 : x.major = y.major := natCmp_eq_eq hxy
      show natCmp x.major z.major = natCmp y.major z.major
      rw [h3])
    vcmp2_eq_congr a b h c

/-- Transitivity of strict `vcmp`. -/
theorem vcmp_lt_trans (a b c : SemVer) (h1 : vcmp a b = Ordering.lt)
    (h2 : vcmp b c = Ordering.lt) : vcmp a c = Ordering.lt := by
  show thenCmp (natCmp a.major c.major) (vcmp2 a c) = Ordering.lt
  exact compCmp_lt_trans (fun x y : SemVer => natCmp x.major y.major) vcmp2
    (fun x y => natCmp_swap x.major y.major)
    (fun x y z hab hbc => natCmp_lt_trans hab hbc)
    (fun x y hxy z => by
      have h3 : x.major = y.major := natCmp_eq_eq hxy
      show natCmp x.major z.major = natCmp y.major z.major
      rw [h3])
    vcmp2_lt_trans a b c h1 h2

/-- `precLE` holds exactly when the comparison is not `gt`. -/
theorem precLE_iff {a b : SemVer} : precLE a b = true ↔ vcmp a b ≠ Ordering.gt := by
  unfold precLE
  exact decide_eq_true_iff

/-- Precedence is reflexive. -/
theorem precLE_refl (a : SemVer) : precLE a a = true := by
  rw [precLE_iff]
  intro h
  have := vcmp_swap a a
  rw [h] at this
  exact absurd this (by decide)

/-- Precedence is total. -/
theorem precLE_total (a b : SemVer) : precLE a b = true ∨ precLE b a = true := by
  rw [precLE_iff, precLE_iff]
  cases h : vcmp a b with
  | lt => exact Or.inl (by simp [h])
  | eq => exact Or.inl (by simp [h])
  | gt =>
    refine Or.inr ?_
    have := vcmp_swap b a
    rw [h] at this
    rw [this]
    decide

/-- Precedence is transitive. -/
theorem precLE_trans {a b c : SemVer} (h1 : precLE a b = true) (h2 : precLE b c = true) :
    precLE a c = true := by
  rw [precLE_iff] at h1 h2 ⊢
  cases hab : vcmp a b with
  | gt => exact absurd hab h1
  | eq =>
    rw [vcmp_eq_congr a b hab c]
    exact h2
  | lt =>
    cases hbc : vcmp b c with
    | gt => exact absurd hbc h2
    | lt =>
      rw [vcmp_lt_trans a b c hab hbc]
      decide
    | eq =>
      rw [← compCmp_congr_r vcmp vcmp_swap vcmp_eq_congr hbc a, hab]
      decide

/-! ## Sorting and version selection -/

/-- Membership in an insertion. -/
theorem mem_insertDesc {v w : SemVer} : ∀ {l : List SemVer},
    (w ∈ insertDesc v l ↔ w = v ∨ w ∈ l)
  | [] => by simp [insertDesc]
  | x :: xs => by
    simp only [insertDesc]
    split
    · simp
    · rw [List.mem_cons, mem_insertDesc (l := xs), List.mem_cons]
      tauto

/-- Sorting preserves membership. -/
theorem mem_sortDesc {w : SemVer} : ∀ {l : List SemVer}, (w ∈ sortDesc l ↔ w ∈ l)
  | [] => Iff.rfl
  | x :: xs => by
    simp only [sortDesc]
    rw [mem_insertDesc, mem_sortDesc (l := xs), List.mem_cons]

/-- An insertion is never empty. -/
theorem insertDesc_ne_nil (v : SemVer) : ∀ l : List SemVer, insertDesc v l ≠ []
  | [] => by simp [insertDesc]
  | x :: xs => by
    simp only [insertDesc]
    split <;> simp

/-- Sorting returns the empty list only on the empty list. -/
theorem sortDesc_eq_nil {l : List SemVer} (h : sortDesc l = []) : l = [] := by
  cases l with
  | nil => rfl
  | cons x xs => exact absurd h (insertDesc_ne_nil x (sortDesc xs))

/-- The head of the descending sort is a member of the input and dominates
every member of the input in precedence. -/
theorem sortDesc_head_max :
    ∀ l v rest, sortDesc l = v :: rest → v ∈ l ∧ ∀ w ∈ l, precLE w v = true := by
  intro l
  induction l with
  | nil => intro v rest h; exact absurd h (by simp [sortDesc])
  | cons x xs ih =>
    intro v rest h
    simp only [sortDesc] at h
    cases hs : sortDesc xs with
    | nil =>
      have hxs : xs = [] := sortDesc_eq_nil hs
      rw [hs] at h
      simp only [insertDesc] at h
      cases h
      subst hxs
      exact ⟨List.mem_singleton.mpr rfl, by
        intro w hw
        rw [List.mem_singleton] at hw
        subst hw
        exact precLE_refl _⟩
    | cons y ys =>
      obtain ⟨hymem, hymax⟩ := ih y ys hs
      rw [hs] at h
      simp only [insertDesc] at h
      by_cases hc : precLE y x = true
      · rw [if_pos hc] at h
        cases h
        refine ⟨List.mem_cons_self _ _, ?_⟩
        intro w hw
        rcases List.mem_cons.mp hw with hw | hw
        · subst hw; exact precLE_refl _
        · exact precLE_trans (hymax w hw) hc
      · rw [if_neg hc] at h
        injection h with h1 h2
        subst h1
        refine ⟨List.mem_cons_of_mem _ hymem, ?_⟩
        intro w hw
        rcases List.mem_cons.mp hw with hw | hw
        · subst hw
          rcases precLE_total w y with ht | ht
          · exact ht
          · exact absurd ht hc
        · exact hymax w hw

/-- A successful parse keeps the input string in the `original` field. -/
theorem parseSemVer_original {s : String} {v : SemVer} (h : parseSemVer s = some v) :
    v.original = s := by
  unfold parseSemVer at h
  split at h
  · cases h
    rfl
  · exact absurd h (by simp)

/-- A parsed tag's original name resolves among the tag refs. -/
theorem parsedTags_find {r : Repo} {best : SemVer} (h : best ∈ parsedTags r) :
    ∃ t, r.tagRefs.find? (fun t => t.shortName == best.original) = some t := by
  unfold parsedTags at h
  rw [List.mem_filterMap] at h
  obtain ⟨t, ht, hp⟩ := h
  have hname : t.shortName = best.original := (parseSemVer_original hp).symm
  cases hfind : r.tagRefs.find? (fun t => t.shortName == best.original) with
  | some u => exact ⟨u, rfl⟩
  | none =>
    rw [List.find?_eq_none] at hfind
    exact absurd (beq_iff_eq.mpr hname) (hfind t ht)

/-- Every member of the parsed-tag list is the parse of its own original. -/
theorem parsedTags_parse {r : Repo} {best : SemVer} (h : best ∈ parsedTags r) :
    parseSemVer best.original = some best := by
  unfold parsedTags at h
  rw [List.mem_filterMap] at h
  obtain ⟨t, ht, hp⟩ := h
  rw [← parseSemVer_original hp] at hp
  exact hp

/-- With a working tag enumeration, `GetLastVersion` always succeeds. -/
theorem getLastVersion_isOk {r : Repo} (ht : r.tagsOk = true) :
    ∃ out, GetLastVersion r = Except.ok out := by
  unfold GetLastVersion
  rw [ht]
  cases hs : sortDesc (parsedTags r) with
  | nil => exact ⟨(none, ""), rfl⟩
  | cons best rest =>
    have hmem : best ∈ parsedTags r := by
      rw [← mem_sortDesc (l := parsedTags r), hs]
      exact List.mem_cons_self _ _
    obtain ⟨t, hfind⟩ := parsedTags_find hmem
    exact ⟨(some best, t.refHash), by simp [hfind]⟩

/-! ## Structure of the commit collection -/

/-- The commits collected by the loop are exactly the per-commit records of
the walk prefix strictly before the boundary. -/
theorem collectLoop_fst (r : Repo) (b : String) :
    ∀ l : List Commit, (collectLoop r b l).1 =
      (l.takeWhile fun c => c.hash != b).flatMap (processCommit r)
  | [] => rfl
  | c :: rest => by
    simp only [collectLoop, List.takeWhile]
    cases hc : c.hash == b with
    | true => simp [bne, hc]
    | false => simp [bne, hc, collectLoop_fst r b rest]

/-- The loop reports a stop exactly when the boundary hash occurs in the
walk. -/
theorem collectLoop_snd (r : Repo) (b : String) :
    ∀ l : List Commit, (collectLoop r b l).2 = l.any fun c => c.hash == b
  | [] => rfl
  | c :: rest => by
    simp only [collectLoop, List.any_cons]
    cases hc : c.hash == b with
    | true => simp [hc]
    | false => simp [hc, collectLoop_snd r b rest]

/-- Commit component of a successful `GetCommits` call. -/
theorem getCommits_fst {r : Repo} {h : String} (hh : r.head = some h) (hl : r.logOk = true)
    (b : String) :
    (GetCommits r b).1 = (r.walk.takeWhile fun c => c.hash != b).flatMap (processCommit r) := by
  unfold GetCommits
  rw [hh]
  simp only [hl, if_true]
  cases hw : r.walkErr with
  | none => simp [collectLoop_fst]
  | some e => simp [collectLoop_fst, apply_ite]

/-- Error component of `GetCommits` after a successful Head and Log call. -/
theorem getCommits_snd {r : Repo} {h : String} (hh : r.head = some h) (hl : r.logOk = true)
    (b : String) :
    (GetCommits r b).2 =
      match r.walkErr with
      | some e =>
        if r.walk.any (fun c => c.hash == b) then none
        else some ("Could not read commits, check git clone depth in your ci: " ++ e)
      | none => none := by
  unfold GetCommits
  rw [hh]
  simp only [hl, if_true]
  cases hw : r.walkErr with
  | none => rfl
  | some e =>
    rw [collectLoop_snd]
    by_cases hany : (r.walk.any fun c => c.hash == b) = true
    · simp [hany]
    · simp [hany]

/-! ## The claims -/

/-- C1: the claim says `GetCommits` never returns two entries with the same
hash.  The code accumulates into an append-only slice with no deduplication,
so on `repoMerge` — where commit `b` is reached both by the committer-time
walk and as the merge parent of `m` — the result lists hash `b` twice; the
result of evaluating the code at this input is not duplicate-free. -/
theorem c1_duplicate_hash_returned :
    ((GetCommits repoMerge "").1.map fun c => c.hash) = ["m", "b", "a", "b"] ∧
    ¬ ((GetCommits repoMerge "").1.map fun c => c.hash).Nodup := by
  constructor
  · rfl
  · decide

/-- C2 counterexample: with boundary `b` on `repoMerge`, the boundary commit's
hash still appears in the result, delivered by the merge-parent traversal of
`m`, so the exclusion does not hold in the whole result. -/
theorem c2_boundary_hash_in_result :
    "b" ∈ ((GetCommits repoMerge "b").1.map fun c => c.hash) := by decide

/-- C2 (amended): the boundary exclusion holds for the primary walk only: the
result is exactly the concatenated per-commit contributions of the walk
commits strictly before the first occurrence of the boundary hash, and none
of those contributing commits is the boundary commit; merge-parent additions
inside those contributions may still mention the boundary or its ancestors. -/
theorem c2_primary_walk_stops_at_boundary {r : Repo} {h : String} (b : String)
    (hh : r.head = some h) (hl : r.logOk = true) :
    (GetCommits r b).1 = ((r.walk.takeWhile fun c => c.hash != b).flatMap (processCommit r)) ∧
    ∀ c ∈ r.walk.takeWhile fun c => c.hash != b, c.hash ≠ b := by
  refine ⟨getCommits_fst hh hl b, ?_⟩
  intro c hc
  have hp := List.mem_takeWhile_imp hc
  exact bne_iff_ne.mp hp

/-- C2 witness: the amended statement evaluated on `repoMerge` with boundary
`b`. -/
theorem c2_primary_walk_stops_at_boundary_witness :
    (GetCommits repoMerge "b").1 =
      ((repoMerge.walk.takeWhile fun c => c.hash != "b").flatMap (processCommit repoMerge)) ∧
    ∀ c ∈ repoMerge.walk.takeWhile fun c => c.hash != "b", c.hash ≠ "b" :=
  c2_primary_walk_stops_at_boundary "b" rfl rfl

/-- C3 counterexample: when the log iterator fails after yielding one commit,
`GetCommits` returns a non-empty partial list *and* a non-nil error at the
same time, contradicting "either a complete result or an error". -/
theorem c3_partial_list_alongside_error :
    (GetCommits repoTrunc "zzz").1 ≠ [] ∧ (GetCommits repoTrunc "zzz").2 ≠ none := by
  decide

/-- C3 (amended): when the commit iteration fails after its yielded prefix
and the boundary was not reached, `GetCommits` returns the wrapped
clone-depth error *together with* the commits collected so far (the records
of the whole yielded prefix); callers must consult the error, not the list. -/
theorem c3_error_with_partial_list {r : Repo} {h e : String} (b : String)
    (hh : r.head = some h) (hl : r.logOk = true) (he : r.walkErr = some e)
    (hb : ∀ c ∈ r.walk, c.hash ≠ b) :
    (GetCommits r b).1 = r.walk.flatMap (processCommit r) ∧
    (GetCommits r b).2 =
      some ("Could not read commits, check git clone depth in your ci: " ++ e) := by
  have htake : r.walk.takeWhile (fun c => c.hash != b) = r.walk :=
    List.takeWhile_eq_self_iff.mpr fun c hc => bne_iff_ne.mpr (hb c hc)
  have hany : (r.walk.any fun c => c.hash == b) = false :=
    List.any_eq_false.mpr fun c hc => by
      rw [beq_iff_eq]
      exact hb c hc
  constructor
  · rw [getCommits_fst hh hl b, htake]
  · rw [getCommits_snd hh hl b, he]
    simp [hany]

/-- C3 witness: the amended statement evaluated on `repoTrunc`. -/
theorem c3_error_with_partial_list_witness :
    (GetCommits repoTrunc "zzz").1 = repoTrunc.walk.flatMap (processCommit repoTrunc) ∧
    (GetCommits repoTrunc "zzz").2 =
      some ("Could not read commits, check git clone depth in your ci: " ++
        "object not found") :=
  c3_error_with_partial_list "zzz" rfl rfl rfl (by decide)

/-- C4: the claim says `GetLastVersion` returns the hash of the commit the
winning tag points to, dereferencing annotated tags.  The code returns the
raw ref hash: on `repoAnn` the annotated tag `v1.0.0` points at tag object
`t1` whose target commit is `c1`, yet the code returns `t1`, not the commit
hash `c1` the spec-modelled dereference produces. -/
theorem c4_annotated_tag_hash_not_peeled :
    GetLastVersion repoAnn = Except.ok (some ⟨1, 0, 0, [], "v1.0.0"⟩, "t1") ∧
    tagCommitHash repoAnn "t1" = "c1" ∧ ("t1" : String) ≠ "c1" := by
  refine ⟨rfl, rfl, by decide⟩

/-- C5: `GetLastVersion` returns a version of maximal semantic-version
precedence among the tags that parse; a tag that fails to parse never
influences the outcome; and with zero parsing tags it returns the absent
version with an empty hash and no error. -/
theorem c5_highest_precedence_selection {r : Repo} (ht : r.tagsOk = true) :
    (parsedTags r = [] → GetLastVersion r = Except.ok (none, "")) ∧
    (parsedTags r ≠ [] →
      ∃ v hsh, GetLastVersion r = Except.ok (some v, hsh) ∧ v ∈ parsedTags r ∧
        ∀ w ∈ parsedTags r, precLE w v = true) ∧
    (∀ t : TagRef, parseSemVer t.shortName = none →
      GetLastVersion { r with tagRefs := t :: r.tagRefs } = GetLastVersion r) := by
  refine ⟨?_, ?_, ?_⟩
  · intro hp
    simp [GetLastVersion, ht, hp, sortDesc]
  · intro hne
    cases hs : sortDesc (parsedTags r) with
    | nil => exact absurd (sortDesc_eq_nil hs) hne
    | cons best rest =>
      obtain ⟨hmem, hmax⟩ := sortDesc_head_max (parsedTags r) best rest hs
      obtain ⟨t, hfind⟩ := parsedTags_find hmem
      refine ⟨best, t.refHash, ?_, hmem, hmax⟩
      simp [GetLastVersion, ht, hs, hfind]
  · intro t hpt
    have hpar : parsedTags { r with tagRefs := t :: r.tagRefs } = parsedTags r := by
      unfold parsedTags
      exact List.filterMap_cons_none hpt
    cases hs : sortDesc (parsedTags r) with
    | nil =>
      unfold GetLastVersion
      simp only [hpar]
      simp only [hs, ht, if_true]
    | cons best rest =>
      obtain ⟨hmem, hmax⟩ := sortDesc_head_max (parsedTags r) best rest hs
      have hne2 : ¬ ((fun x : TagRef => x.shortName == best.original) t) = true := by
        simp only [beq_iff_eq]
        intro hEq
        rw [hEq, parsedTags_parse hmem] at hpt
        exact Option.noConfusion hpt
      unfold GetLastVersion
      simp only [hpar]
      simp only [hs, ht, if_true]
      rw [@List.find?_cons_of_neg TagRef (fun x : TagRef => x.shortName == best.original)
        t r.tagRefs hne2]

/-- C5 witness: the spec's example tag set, where `v2.0.0-rc.1` wins and
`not-a-version` is ignored. -/
theorem c5_highest_precedence_selection_witness :
    (parsedTags repoTags = [] → GetLastVersion repoTags = Except.ok (none, "")) ∧
    (parsedTags repoTags ≠ [] →
      ∃ v hsh, GetLastVersion repoTags = Except.ok (some v, hsh) ∧ v ∈ parsedTags repoTags ∧
        ∀ w ∈ parsedTags repoTags, precLE w v = true) ∧
    (∀ t : TagRef, parseSemVer t.shortName = none →
      GetLastVersion { repoTags with tagRefs := t :: repoTags.tagRefs } =
        GetLastVersion repoTags) :=
  c5_highest_precedence_selection rfl

/-- C6 counterexample: on `repoOcto` the HEAD commit `o` has three parents —
more than one — and its second parent `b` is readable, yet the merge block
contributes nothing: the result holds one record per walk commit and no
additional record of the second parent, because the code guards the merge
traversal with `len(ParentHashes) == 2`, not "more than one". -/
theorem c6_octopus_merge_not_traversed :
    cmO.parentHashes.length > 1 ∧
    repoOcto.commitObject "b" = some cmB ∧
    mergeAdditions repoOcto cmO = [] ∧
    ((GetCommits repoOcto "").1.map fun c => c.hash) = ["o", "a", "b", "c"] := by
  refine ⟨by decide, by decide, rfl, rfl⟩

/-- C6 (amended): for every commit recorded by the primary walk that has
*exactly two* parents and whose second parent is readable, the result
contains, contiguously, the second parent's record followed by the records of
`getParents` of it — the recursive traversal that continues through
single-parent commits and ends when parents run out or a lookup fails. -/
theorem c6_two_parent_merge_traversed {r : Repo} {h : String} (b : String)
    (c p : Commit) (h1 h2 : String)
    (hh : r.head = some h) (hl : r.logOk = true)
    (hc : c ∈ r.walk.takeWhile fun x => x.hash != b)
    (hp : c.parentHashes = [h1, h2])
    (ho : r.commitObject h2 = some p) :
    (recordOf p :: getParents r p) <:+: (GetCommits r b).1 := by
  rw [getCommits_fst hh hl b]
  obtain ⟨s, t2, hsplit⟩ := List.append_of_mem hc
  rw [hsplit, List.flatMap_append, List.flatMap_cons]
  have hmerge : mergeAdditions r c = recordOf p :: getParents r p := by
    unfold mergeAdditions
    rw [hp]
    simp [ho]
  have hproc : processCommit r c = recordOf c :: recordOf p :: getParents r p := by
    unfold processCommit
    rw [hmerge]
  rw [hproc]
  refine ⟨s.flatMap (processCommit r) ++ [recordOf c], t2.flatMap (processCommit r), ?_⟩
  simp

/-- C6 witness: on `repoMerge`, the merge commit `m` has exactly two parents
and the traversal of its second parent `b` lands contiguously in the result. -/
theorem c6_two_parent_merge_traversed_witness :
    (recordOf cmB :: getParents repoMerge cmB) <:+: (GetCommits repoMerge "").1 :=
  c6_two_parent_merge_traversed "" cmM cmB "a" "b" rfl rfl (by decide) rfl rfl

/-- C7: with the empty boundary hash the walk never stops early — the loop
never reports a boundary stop, the result covers the whole yielded walk, and
every walked commit's record is in the result.  (Commit hashes are never the
empty string in a real repository, which is the stated hypothesis.) -/
theorem c7_empty_boundary_collects_everything {r : Repo} {h : String}
    (hh : r.head = some h) (hl : r.logOk = true)
    (hne : ∀ c ∈ r.walk, c.hash ≠ "") :
    (collectLoop r "" r.walk).2 = false ∧
    (GetCommits r "").1 = r.walk.flatMap (processCommit r) ∧
    ∀ c ∈ r.walk, recordOf c ∈ (GetCommits r "").1 := by
  have htake : r.walk.takeWhile (fun c => c.hash != "") = r.walk :=
    List.takeWhile_eq_self_iff.mpr fun c hc => bne_iff_ne.mpr (hne c hc)
  have hfst : (GetCommits r "").1 = r.walk.flatMap (processCommit r) := by
    rw [getCommits_fst hh hl "", htake]
  refine ⟨?_, hfst, ?_⟩
  · rw [collectLoop_snd]
    exact List.any_eq_false.mpr fun c hc => by
      rw [beq_iff_eq]
      exact hne c hc
  · intro c hc
    rw [hfst, List.mem_flatMap]
    exact ⟨c, hc, List.mem_cons_self _ _⟩

/-- C7 witness: the full-history collection evaluated on `repoMerge`. -/
theorem c7_empty_boundary_collects_everything_witness :
    (collectLoop repoMerge "" repoMerge.walk).2 = false ∧
    (GetCommits repoMerge "").1 = repoMerge.walk.flatMap (processCommit repoMerge) ∧
    ∀ c ∈ repoMerge.walk, recordOf c ∈ (GetCommits repoMerge "").1 :=
  c7_empty_boundary_collects_everything rfl rfl (by decide)

/-- C8 counterexample: the claim's "fails if and only if HEAD cannot be read
or no such qualifying local branch ref exists" is refuted by the
`Repository.Branches()` error path (gitutil.go lines 53-56): on
`repoBranchFail` the `Branches()` call fails and `GetBranch` returns an error
although HEAD is readable and a qualifying local branch ref exists. -/
theorem c8_branches_failure_outside_claimed_conditions :
    (∃ e, GetBranch repoBranchFail = Except.error e) ∧
    repoBranchFail.head = some "HEAD" ∧
    refIsBranch "HEAD" = false ∧
    repoBranchFail.branches.find? branchQualifies = some "refs/heads/main" :=
  ⟨⟨"branches error", rfl⟩, rfl, rfl, rfl⟩

/-- C8 (amended): with a detached HEAD and a successful `Branches()` call,
`GetBranch` returns — without error — the short name of the first enumerated
qualifying local branch (short name not `"origin"`); when the enumeration
completes with no qualifying branch, the `no branch found` error carries the
raw HEAD reference name; a branch-iterator failure before any qualifying
branch instead yields the empty branch name with no error.  `GetBranch`
returns an error exactly when HEAD cannot be read, or — detached — when the
`Branches()` call itself fails, or when a completed enumeration finds no
qualifying branch. -/
theorem c8_branch_resolution_policy (r : Repo) :
    (∀ h, r.head = some h → refIsBranch h = false → r.branchesOk = true →
      (∀ p, r.branches.find? branchQualifies = some p →
          GetBranch r = Except.ok (refShortName p)) ∧
      (r.branches.find? branchQualifies = none → r.branchesErr = none →
          ∃ pre post, GetBranch r = Except.error (pre ++ h ++ post)) ∧
      (r.branches.find? branchQualifies = none → ∀ e, r.branchesErr = some e →
          GetBranch r = Except.ok "")) ∧
    ((∃ e, GetBranch r = Except.error e) ↔
      (r.head = none ∨
        ∃ h, r.head = some h ∧ refIsBranch h = false ∧
          (r.branchesOk = false ∨
            (r.branchesOk = true ∧ r.branches.find? branchQualifies = none ∧
              r.branchesErr = none)))) := by
  constructor
  · intro h hh hd hbo
    refine ⟨?_, ?_, ?_⟩
    · intro p hp
      unfold GetBranch
      rw [hh]
      simp [hd, hbo, hp]
    · intro hp hberr
      refine ⟨"no branch found, found ",
        ", please checkout a branch (git checkout -b <BRANCH>)", ?_⟩
      unfold GetBranch
      rw [hh]
      simp [hd, hbo, hp, hberr]
    · intro hp e hberr
      unfold GetBranch
      rw [hh]
      simp [hd, hbo, hp, hberr]
  · constructor
    · rintro ⟨e, he⟩
      unfold GetBranch at he
      cases hh : r.head with
      | none => exact Or.inl rfl
      | some h =>
        rw [hh] at he
        right
        by_cases hb : refIsBranch h = true
        · simp [hb] at he
        · have hb' : refIsBranch h = false := by
            cases hfb : refIsBranch h
            · rfl
            · exact absurd hfb hb
          refine ⟨h, rfl, hb', ?_⟩
          cases hbo : r.branchesOk with
          | false => exact Or.inl rfl
          | true =>
            refine Or.inr ⟨rfl, ?_⟩
            cases hfind : r.branches.find? branchQualifies with
            | some p =>
              exfalso
              simp [hb', hbo, hfind] at he
            | none =>
              refine ⟨rfl, ?_⟩
              cases hberr : r.branchesErr with
              | some e2 =>
                exfalso
                simp [hb', hbo, hfind, hberr] at he
              | none => rfl
    · rintro (hh | ⟨h, hh, hb, hbo | ⟨hbo, hfind, hberr⟩⟩)
      · exact ⟨"reference not found", by unfold GetBranch; rw [hh]⟩
      · refine ⟨"branches error", ?_⟩
        unfold GetBranch
        rw [hh]
        simp [hb, hbo]
      · refine ⟨"no branch found, found " ++ h ++
          ", please checkout a branch (git checkout -b <BRANCH>)", ?_⟩
        unfold GetBranch
        rw [hh]
        simp [hb, hbo, hfind, hberr]

/-- C8 witness: the detached checkout `repoDetached` yields its only local
branch; with no local branches the error carries the raw HEAD name; an
iterator failure before any qualifying branch yields the empty name with no
error. -/
theorem c8_branch_resolution_policy_witness :
    GetBranch repoDetached = Except.ok (refShortName "refs/heads/release/1.0") ∧
    (∃ pre post, GetBranch { repoDetached with branches := [] } =
      Except.error (pre ++ "HEAD" ++ post)) ∧
    GetBranch { repoDetached with branches := [], branchesErr := some "io" } =
      Except.ok "" :=
  ⟨((c8_branch_resolution_policy repoDetached).1 "HEAD" rfl rfl rfl).1
      "refs/heads/release/1.0" rfl,
    ((c8_branch_resolution_policy { repoDetached with branches := [] }).1
      "HEAD" rfl rfl rfl).2.1 rfl rfl,
    ((c8_branch_resolution_policy
        { repoDetached with branches := [], branchesErr := some "io" }).1
      "HEAD" rfl rfl rfl).2.2 rfl "io" rfl⟩

/-- C9: local read failures are not fatal.  The error component of
`GetCommits` does not depend on the object store at all — so an unreadable
second parent or recursive ancestor (a hash missing from the store) can only
shorten the collected records, never produce an error — and with a working
tag enumeration `GetLastVersion` never returns an error, whatever tags fail
to parse. -/
theorem c9_local_failures_not_fatal (r : Repo) (b : String) :
    (∀ s : List Commit, (GetCommits { r with store := s } b).2 = (GetCommits r b).2) ∧
    (r.tagsOk = true → ∃ out, GetLastVersion r = Except.ok out) := by
  constructor
  · intro s
    obtain ⟨st, hd, br, bok, berr, lg, wk, we, tg, trf, ann⟩ := r
    cases hd with
    | none => rfl
    | some h0 =>
      cases lg with
      | false => rfl
      | true =>
        cases we with
        | none => rfl
        | some e =>
          have h1 :=
            collectLoop_snd ⟨s, some h0, br, bok, berr, true, wk, some e, tg, trf, ann⟩ b wk
          have h2 :=
            collectLoop_snd ⟨st, some h0, br, bok, berr, true, wk, some e, tg, trf, ann⟩ b wk
          simp only [GetCommits]
          rw [h1, h2]
          by_cases hany : (wk.any fun c => c.hash == b) = true
          · simp [hany]
          · simp [hany]
  · intro ht
    exact getLastVersion_isOk ht

/-- C9 witness: evaluated on `repoTags`, whose tag list contains the
unparsable `not-a-version`. -/
theorem c9_local_failures_not_fatal_witness :
    (∀ s : List Commit,
      (GetCommits { repoTags with store := s } "x").2 = (GetCommits repoTags "x").2) ∧
    (∃ out, GetLastVersion repoTags = Except.ok out) :=
  ⟨(c9_local_failures_not_fatal repoTags "x").1,
    (c9_local_failures_not_fatal repoTags "x").2 rfl⟩

/-- C10: when the supplied boundary hash is the hash of the commit HEAD
points to — the first commit the walk yields — `GetCommits` returns an empty
list and no error. -/
theorem c10_boundary_at_head {r : Repo} {h : String} (b : String) (c : Commit)
    (rest : List Commit) (hh : r.head = some h) (hl : r.logOk = true)
    (hw : r.walk = c :: rest) (hb : c.hash = b) :
    GetCommits r b = ([], none) := by
  have hcl : collectLoop r b r.walk = ([], true) := by
    rw [hw]
    simp [collectLoop, hb]
  unfold GetCommits
  rw [hh]
  simp only [hl, if_true]
  cases hwe : r.walkErr with
  | none => simp [hcl]
  | some e => simp [hcl]

/-- C10 witness: boundary equal to HEAD's commit hash on `repoMerge`. -/
theorem c10_boundary_at_head_witness : GetCommits repoMerge "m" = ([], none) :=
  c10_boundary_at_head "m" cmM [cmA, cmB] rfl rfl rfl rfl

/-- Sanity check: the spec's version-selection example evaluated end to end —
`v2.0.0-rc.1` wins over `v1.2.0` and `v1.9.9`, and `not-a-version` is
ignored. -/
theorem getLastVersion_spec_example :
    GetLastVersion repoTags =
      Except.ok (some ⟨2, 0, 0, [PreId.alpha ['r', 'c'], PreId.num 1], "v2.0.0-rc.1"⟩, "h2") :=
  rfl
